import Mathlib

/-!
Verification of the bitboard core of `chessr` (`src/board/bitboard.rs`).

A Rust `u64` is modelled as a `Nat` together with explicit reduction modulo
`2 ^ 64` at the one place where a value could leave the 64-bit range (the
left shift `1u64 << square`).  `BitBoard` wraps such a word; `Position`
holds the 2 × 6 per-kind boards and the 2 per-side union boards.  Rust
methods that mutate `self` become functions returning the updated value.
-/

/-- Bitwise complement on a 64-bit word (Rust `!x` on `u64`): every one of
the low 64 bits is flipped. -/
def not64 (x : Nat) : Nat := x ^^^ (2 ^ 64 - 1)

/-- Number of set bits of a natural number (Rust `u64::count_ones`). -/
def countOnes (n : Nat) : Nat :=
  if h : n = 0 then 0 else n % 2 + countOnes (n / 2)
decreasing_by exact Nat.div_lt_self (Nat.pos_of_ne_zero h) one_lt_two

/-- Index of the least significant set bit (Rust `u64::trailing_zeros`);
`64` on the zero word, as in Rust, though the iterator never asks for it. -/
def trailingZeros (n : Nat) : Nat :=
  if h : n = 0 then 64
  else if n % 2 = 1 then 0
  else 1 + trailingZeros (n / 2)
decreasing_by exact Nat.div_lt_self (Nat.pos_of_ne_zero h) one_lt_two

/-- A 64-bit integer where each bit corresponds to a square on the
chessboard (`pub struct BitBoard(pub u64)`). -/
structure BitBoard where
  val : Nat
deriving DecidableEq

/-- Create an empty bitboard (`BitBoard::empty`). -/
def BitBoard.empty : BitBoard := ⟨0⟩

/-- Create a bitboard with a single bit set at the given square index
(`BitBoard::from_square`, `BitBoard(1u64 << square)`). -/
def BitBoard.from_square (square : Nat) : BitBoard :=
  ⟨(1 <<< square) % 2 ^ 64⟩

/-- Set a bit at a given square (`BitBoard::set_bit`,
`self.0 |= 1u64 << square`). -/
def BitBoard.set_bit (b : BitBoard) (square : Nat) : BitBoard :=
  ⟨b.val ||| (1 <<< square) % 2 ^ 64⟩

/-- Clear a bit at a given square (`BitBoard::clear_bit`,
`self.0 &= !(1u64 << square)`). -/
def BitBoard.clear_bit (b : BitBoard) (square : Nat) : BitBoard :=
  ⟨b.val &&& not64 ((1 <<< square) % 2 ^ 64)⟩

/-- Check if a bit at a given square is set (`BitBoard::is_set`,
`(self.0 & (1u64 << square)) != 0`). -/
def BitBoard.is_set (b : BitBoard) (square : Nat) : Bool :=
  (b.val &&& (1 <<< square) % 2 ^ 64) != 0

/-- Count the number of set bits (`BitBoard::popcount`,
`self.0.count_ones()`). -/
def BitBoard.popcount (b : BitBoard) : Nat := countOnes b.val

/-- Iterator over set bits in a BitBoard (`pub struct BitBoardIterator(u64)`);
it owns a private copy of the word. -/
structure BitBoardIterator where
  val : Nat
deriving DecidableEq

/-- Produce an iterator over the set bits (`BitBoard::iter`,
`BitBoardIterator(self.0)`): the word is copied, the source board is
untouched, and each call starts a fresh traversal. -/
def BitBoard.iter (b : BitBoard) : BitBoardIterator := ⟨b.val⟩

/-- One step of the iterator (`BitBoardIterator::next`): on the zero word
the stream is over; otherwise yield the index of the least significant set
bit and clear it (`self.0 &= self.0 - 1`). -/
def BitBoardIterator.next (it : BitBoardIterator) : Option (Nat × BitBoardIterator) :=
  if it.val = 0 then none
  else some (trailingZeros it.val, ⟨it.val &&& (it.val - 1)⟩)

/-- The full stream of indices obtained by running the iterator loop on a
word until `next` returns `none`. -/
def bitList (w : Nat) : List Nat :=
  if h : w = 0 then []
  else trailingZeros w :: bitList (w &&& (w - 1))
decreasing_by
  exact Nat.lt_of_le_of_lt Nat.and_le_right (Nat.sub_lt (Nat.pos_of_ne_zero h) one_pos)

/-- The list of all indices an iterator will yield from its current state. -/
def BitBoardIterator.toList (it : BitBoardIterator) : List Nat := bitList it.val

/-- Rust-checked left shift on a 64-bit word: in Rust a shift amount of 64
or more on a `u64` is an overflow fault (the source performs no bounds
check before `1u64 << square`), so the checked operation rejects it. -/
def shl64? (x n : Nat) : Option Nat :=
  if n < 64 then some ((x <<< n) % 2 ^ 64) else none

/-- `from_square` with the shift fault made explicit. -/
def BitBoard.from_square? (square : Nat) : Option BitBoard :=
  (shl64? 1 square).map BitBoard.mk

/-- `set_bit` with the shift fault made explicit. -/
def BitBoard.set_bit? (b : BitBoard) (square : Nat) : Option BitBoard :=
  (shl64? 1 square).map fun s => ⟨b.val ||| s⟩

/-- `clear_bit` with the shift fault made explicit. -/
def BitBoard.clear_bit? (b : BitBoard) (square : Nat) : Option BitBoard :=
  (shl64? 1 square).map fun s => ⟨b.val &&& not64 s⟩

/-- `is_set` with the shift fault made explicit. -/
def BitBoard.is_set? (b : BitBoard) (square : Nat) : Option Bool :=
  (shl64? 1 square).map fun s => (b.val &&& s) != 0

/-- Constant for the white side (`sides::WHITE = 0`). -/
def sides.WHITE : Fin 2 := 0

/-- Constant for the black side (`sides::BLACK = 1`). -/
def sides.BLACK : Fin 2 := 1

/-- A full chess position represented by bitboards (`pub struct Position`). -/
structure Position where
  /-- Bitboards for each side's pieces, indexed `[side][piece_type]`. -/
  bb_pieces : Fin 2 → Fin 6 → BitBoard
  /-- Bitboards for all pieces of each side. -/
  bb_sides : Fin 2 → BitBoard

/-- Create a new empty position (`Position::new`). -/
def Position.new : Position :=
  { bb_pieces := fun _ _ => BitBoard.empty
    bb_sides := fun _ => BitBoard.empty }

/-- Body of one iteration of the `for piece in 0..6` loop of
`Position::update_sides`: OR piece board `piece` of each side into that
side's union board. -/
def orStep (q : Position) (piece : Fin 6) : Position :=
  { q with bb_sides := fun s => ⟨(q.bb_sides s).val ||| (q.bb_pieces s piece).val⟩ }

/-- The loop range `0..6` of `update_sides`. -/
def pieceRange : List (Fin 6) := [0, 1, 2, 3, 4, 5]

/-- Update `bb_sides` from `bb_pieces` (`Position::update_sides`): zero both
union boards, then OR every piece board of each side into that side's
union board. -/
def Position.update_sides (p : Position) : Position :=
  List.foldl orStep { p with bb_sides := fun _ => BitBoard.empty } pieceRange

/-- Specification-side definition, following the spec's words: the bitwise
OR of `bb_pieces[s][k]` over all six kinds `k`.  It is compared with what
`update_sides` stores in `bb_sides[s]`. -/
def sideUnion (p : Position) (s : Fin 2) : BitBoard :=
  ⟨List.foldl (fun a k => a ||| (p.bb_pieces s k).val) 0 pieceRange⟩

/-! ### Basic helper lemmas -/

theorem BitBoard.eq_of_val {a b : BitBoard} (h : a.val = b.val) : a = b := by
  cases a; cases b; cases h; rfl

theorem Position.ext' {p q : Position} (h1 : p.bb_pieces = q.bb_pieces)
    (h2 : p.bb_sides = q.bb_sides) : p = q := by
  cases p; cases q; cases h1; cases h2; rfl

theorem shl_mod_eq_two_pow {i : Nat} (hi : i < 64) : (1 <<< i) % 2 ^ 64 = 2 ^ i := by
  rw [Nat.shiftLeft_eq, one_mul, Nat.mod_eq_of_lt (Nat.pow_lt_pow_right one_lt_two hi)]

theorem shl_mod_eq_zero {i : Nat} (hi : 64 ≤ i) : (1 <<< i) % 2 ^ 64 = 0 := by
  rw [Nat.shiftLeft_eq, one_mul]
  exact Nat.mod_eq_zero_of_dvd (pow_dvd_pow 2 hi)

theorem trailingZeros_of_odd {w : Nat} (hw : w % 2 = 1) : trailingZeros w = 0 := by
  rw [trailingZeros]
  have : w ≠ 0 := by omega
  simp [this, hw]

theorem trailingZeros_of_even {w : Nat} (hw : w ≠ 0) (he : w % 2 = 0) :
    trailingZeros w = 1 + trailingZeros (w / 2) := by
  rw [trailingZeros]
  simp [hw, he]

theorem testBit_sub_one (w : Nat) (hw : w ≠ 0) (j : Nat) :
    (w - 1).testBit j =
      if j < trailingZeros w then true
      else if j = trailingZeros w then false
      else w.testBit j := by
  induction w using Nat.strong_induction_on generalizing j with
  | _ w ih =>
    rcases Nat.mod_two_eq_zero_or_one w with he | ho
    · have hhalf : w / 2 ≠ 0 := by omega
      rw [trailingZeros_of_even hw he]
      match j with
      | 0 =>
        have h1 : (w - 1) % 2 = 1 := by omega
        rw [Nat.testBit_zero]
        simp [h1]
      | k + 1 =>
        rw [Nat.testBit_succ, Nat.testBit_succ]
        have hq : (w - 1) / 2 = w / 2 - 1 := by omega
        rw [hq, ih (w / 2) (Nat.div_lt_self (Nat.pos_of_ne_zero hw) one_lt_two) hhalf k]
        split_ifs <;> first | rfl | omega
    · rw [trailingZeros_of_odd ho]
      match j with
      | 0 =>
        have h0 : (w - 1) % 2 = 0 := by omega
        rw [Nat.testBit_zero]
        simp [h0]
      | k + 1 =>
        rw [Nat.testBit_succ, Nat.testBit_succ]
        have hq : (w - 1) / 2 = w / 2 := by omega
        rw [hq]
        simp

theorem testBit_trailingZeros_self {w : Nat} (hw : w ≠ 0) :
    w.testBit (trailingZeros w) = true := by
  induction w using Nat.strong_induction_on with
  | _ w ih =>
    rcases Nat.mod_two_eq_zero_or_one w with he | ho
    · have hhalf : w / 2 ≠ 0 := by omega
      rw [trailingZeros_of_even hw he, Nat.add_comm, Nat.testBit_succ]
      exact ih (w / 2) (Nat.div_lt_self (Nat.pos_of_ne_zero hw) one_lt_two) hhalf
    · rw [trailingZeros_of_odd ho, Nat.testBit_zero]
      simp [ho]

theorem testBit_lt_trailingZeros {w : Nat} (hw : w ≠ 0) {j : Nat}
    (hj : j < trailingZeros w) : w.testBit j = false := by
  induction w using Nat.strong_induction_on generalizing j with
  | _ w ih =>
    rcases Nat.mod_two_eq_zero_or_one w with he | ho
    · rw [trailingZeros_of_even hw he] at hj
      match j with
      | 0 => rw [Nat.testBit_zero]; simp [he]
      | k + 1 =>
        rw [Nat.testBit_succ]
        have hhalf : w / 2 ≠ 0 := by omega
        exact ih (w / 2) (Nat.div_lt_self (Nat.pos_of_ne_zero hw) one_lt_two) hhalf (by omega)
    · rw [trailingZeros_of_odd ho] at hj; omega

theorem testBit_and_sub_one (w : Nat) (hw : w ≠ 0) (j : Nat) :
    (w &&& (w - 1)).testBit j =
      if j = trailingZeros w then false else w.testBit j := by
  rw [Nat.testBit_land, testBit_sub_one w hw j]
  by_cases h1 : j < trailingZeros w
  · rw [testBit_lt_trailingZeros hw h1]
    simp [h1, show j ≠ trailingZeros w by omega]
  · by_cases h2 : j = trailingZeros w
    · simp [h2, show ¬ trailingZeros w < trailingZeros w by omega]
    · simp [h1, h2]

theorem bitList_zero : bitList 0 = [] := by rw [bitList]; rfl

theorem bitList_of_ne {w : Nat} (hw : w ≠ 0) :
    bitList w = trailingZeros w :: bitList (w &&& (w - 1)) := by
  rw [bitList]; simp [hw]

theorem and_sub_one_lt {w : Nat} (hw : w ≠ 0) : w &&& (w - 1) < w :=
  Nat.lt_of_le_of_lt Nat.and_le_right (Nat.sub_lt (Nat.pos_of_ne_zero hw) one_pos)

theorem mem_bitList (w : Nat) (i : Nat) : i ∈ bitList w ↔ w.testBit i = true := by
  induction w using Nat.strong_induction_on generalizing i with
  | _ w ih =>
    by_cases hw : w = 0
    · subst hw
      simp [bitList_zero, Nat.zero_testBit]
    · rw [bitList_of_ne hw, List.mem_cons, ih (w &&& (w - 1)) (and_sub_one_lt hw) i,
        testBit_and_sub_one w hw i]
      by_cases h : i = trailingZeros w
      · simp [h, testBit_trailingZeros_self hw]
      · simp [h]

theorem sorted_bitList (w : Nat) : List.Sorted (fun a b => a < b) (bitList w) := by
  induction w using Nat.strong_induction_on with
  | _ w ih =>
    by_cases hw : w = 0
    · subst hw; rw [bitList_zero]; exact List.sorted_nil
    · rw [bitList_of_ne hw, List.sorted_cons]
      refine ⟨fun b hb => ?_, ih (w &&& (w - 1)) (and_sub_one_lt hw)⟩
      rw [mem_bitList, testBit_and_sub_one w hw b] at hb
      by_cases hbt : b = trailingZeros w
      · simp [hbt] at hb
      · simp [hbt] at hb
        by_cases hlt : b < trailingZeros w
        · rw [testBit_lt_trailingZeros hw hlt] at hb; exact absurd hb (by simp)
        · omega

theorem bitList_lt_of_mem {w : Nat} (hw : w < 2 ^ 64) {i : Nat}
    (hi : i ∈ bitList w) : i < 64 := by
  rw [mem_bitList] at hi
  by_contra hge
  have h64 : 2 ^ 64 ≤ 2 ^ i := Nat.pow_le_pow_right two_pos (by omega)
  rw [Nat.testBit_lt_two_pow (lt_of_lt_of_le hw h64)] at hi
  exact absurd hi (by simp)

theorem bitList_length_le {w : Nat} (hw : w < 2 ^ 64) : (bitList w).length ≤ 64 := by
  have hnd : (bitList w).Nodup := (sorted_bitList w).nodup
  rw [← List.toFinset_card_of_nodup hnd]
  have hsub : (bitList w).toFinset ⊆ Finset.range 64 := by
    intro x hx
    rw [List.mem_toFinset] at hx
    exact Finset.mem_range.mpr (bitList_lt_of_mem hw hx)
  calc (bitList w).toFinset.card ≤ (Finset.range 64).card := Finset.card_le_card hsub
    _ = 64 := Finset.card_range 64

theorem countOnes_zero : countOnes 0 = 0 := by rw [countOnes]; rfl

theorem countOnes_two_pow (i : Nat) : countOnes (2 ^ i) = 1 := by
  induction i with
  | zero => rw [pow_zero, countOnes]; simp [countOnes_zero]
  | succ k ih =>
    rw [countOnes]
    have h1 : (2 : Nat) ^ (k + 1) ≠ 0 := by positivity
    have h2 : (2 : Nat) ^ (k + 1) % 2 = 0 := by
      rw [pow_succ]; omega
    have h3 : (2 : Nat) ^ (k + 1) / 2 = 2 ^ k := by
      rw [pow_succ]; omega
    simp [h1, h2, h3, ih]

theorem is_set_eq_testBit (b : BitBoard) {i : Nat} (hi : i < 64) :
    b.is_set i = b.val.testBit i := by
  rw [BitBoard.is_set, shl_mod_eq_two_pow hi]
  rcases h : b.val.testBit i with _ | _
  · rw [Nat.and_two_pow, h]
    simp
  · rw [Nat.and_two_pow, h]
    have : (2 : Nat) ^ i ≠ 0 := by positivity
    simp [this]

theorem is_set_eq_false_of_ge (b : BitBoard) {i : Nat} (hi : 64 ≤ i) :
    b.is_set i = false := by
  rw [BitBoard.is_set, shl_mod_eq_zero hi, Nat.and_zero]
  rfl

theorem testBit_lt_64 {b : BitBoard} (hb : b.val < 2 ^ 64) {i : Nat}
    (h : b.val.testBit i = true) : i < 64 := by
  by_contra hge
  have h64 : 2 ^ 64 ≤ 2 ^ i := Nat.pow_le_pow_right two_pos (by omega)
  rw [Nat.testBit_lt_two_pow (lt_of_lt_of_le hb h64)] at h
  exact absurd h (by simp)

theorem foldl_orStep_bb_pieces (l : List (Fin 6)) (q : Position) :
    (List.foldl orStep q l).bb_pieces = q.bb_pieces := by
  induction l generalizing q with
  | nil => rfl
  | cons a l ih => rw [List.foldl_cons, ih (orStep q a)]; rfl

theorem foldl_orStep_bb_sides (l : List (Fin 6)) (q : Position) (s : Fin 2) :
    ((List.foldl orStep q l).bb_sides s).val =
      List.foldl (fun a k => a ||| (q.bb_pieces s k).val) (q.bb_sides s).val l := by
  induction l generalizing q with
  | nil => rfl
  | cons a l ih => rw [List.foldl_cons, List.foldl_cons, ih (orStep q a)]; rfl

theorem update_sides_bb_pieces (p : Position) :
    (p.update_sides).bb_pieces = p.bb_pieces := by
  rw [Position.update_sides, foldl_orStep_bb_pieces]

theorem update_sides_bb_sides (p : Position) (s : Fin 2) :
    (p.update_sides).bb_sides s = sideUnion p s := by
  apply BitBoard.eq_of_val
  rw [Position.update_sides, foldl_orStep_bb_sides]
  rfl

theorem sideUnion_update_sides (p : Position) (s : Fin 2) :
    sideUnion p.update_sides s = sideUnion p s := by
  rw [sideUnion, sideUnion, update_sides_bb_pieces]

/-! ### Claim theorems -/

/-- C1: after any call to `update_sides`, for every side `s`, `bb_sides[s]`
equals the bitwise OR of `bb_pieces[s][k]` over all six kinds `k`,
regardless of the prior contents of `bb_sides` and `bb_pieces`: the
operation recomputes both union masks from scratch and overwrites any
prior value unconditionally. -/
theorem C1_update_sides_synchronizes (p : Position) (s : Fin 2) :
    (p.update_sides).bb_sides s = sideUnion p.update_sides s := by
  rw [update_sides_bb_sides, sideUnion_update_sides]

/-- C2: for every valid index `i`, `from_square i` has exactly bit `i` set
and no other valid bit, `empty` has popcount 0, and `from_square i` has
popcount 1. -/
theorem C2_from_square_spec (i : Nat) (hi : i ≤ 63) :
    (BitBoard.from_square i).is_set i = true ∧
    (∀ j, j ≤ 63 → j ≠ i → (BitBoard.from_square i).is_set j = false) ∧
    BitBoard.empty.popcount = 0 ∧
    (BitBoard.from_square i).popcount = 1 := by
  have hi' : i < 64 := by omega
  have hval : (BitBoard.from_square i).val = 2 ^ i := shl_mod_eq_two_pow hi'
  refine ⟨?_, fun j hj hji => ?_, ?_, ?_⟩
  · rw [is_set_eq_testBit _ hi', hval, Nat.testBit_two_pow_self]
  · rw [is_set_eq_testBit _ (show j < 64 by omega), hval,
      Nat.testBit_two_pow_of_ne (fun h => hji h.symm)]
  · exact countOnes_zero
  · rw [BitBoard.popcount, hval, countOnes_two_pow]

theorem C2_witness :
    5 ≤ 63 ∧
    ((BitBoard.from_square 5).is_set 5 = true ∧
     (∀ j, j ≤ 63 → j ≠ 5 → (BitBoard.from_square 5).is_set j = false) ∧
     BitBoard.empty.popcount = 0 ∧
     (BitBoard.from_square 5).popcount = 1) :=
  ⟨by decide, C2_from_square_spec 5 (by decide)⟩

/-- C3, counterexample to the claim as stated: on a mask whose bit `i` is
already set, `set i` is a no-op but `clear i` removes the bit, so the
round-trip does not restore the mask.  Here `m = from_square 0`, `i = 0`. -/
theorem C3_counterexample :
    ¬ ((BitBoard.from_square 0).set_bit 0).clear_bit 0 = BitBoard.from_square 0 := by
  decide

/-- C3 (amended): for every 64-bit BitMask value `m` and valid index `i`
NOT currently set in `m`, applying `set i` then `clear i` returns `m` to
its prior state. -/
theorem C3_set_clear_roundtrip (m : BitBoard) (i : Nat) (hm : m.val < 2 ^ 64)
    (hi : i ≤ 63) (h : m.is_set i = false) : (m.set_bit i).clear_bit i = m := by
  have hi' : i < 64 := by omega
  apply BitBoard.eq_of_val
  show (m.set_bit i).val &&& not64 ((1 <<< i) % 2 ^ 64) = m.val
  rw [shl_mod_eq_two_pow hi']
  have hsv : (m.set_bit i).val = m.val ||| 2 ^ i := by
    rw [BitBoard.set_bit, shl_mod_eq_two_pow hi']
  rw [hsv]
  apply Nat.eq_of_testBit_eq
  intro j
  rw [Nat.testBit_land, Nat.testBit_lor, not64, Nat.testBit_xor,
    Nat.testBit_two_pow_sub_one]
  have hmi : m.val.testBit i = false := by
    rw [← is_set_eq_testBit m hi']; exact h
  by_cases hj : j = i
  · subst hj
    rw [hmi, Nat.testBit_two_pow_self]
    simp [hi']
  · rw [Nat.testBit_two_pow_of_ne (fun hh => hj hh.symm)]
    by_cases hj64 : j < 64
    · simp [hj64]
    · have hhi : m.val.testBit j = false :=
        Nat.testBit_lt_two_pow
          (lt_of_lt_of_le hm (Nat.pow_le_pow_right two_pos (by omega)))
      rw [hhi]
      simp [hj64]

theorem C3_witness :
    (BitBoard.mk 4).val < 2 ^ 64 ∧ (0 : Nat) ≤ 63 ∧
    (BitBoard.mk 4).is_set 0 = false ∧
    ((BitBoard.mk 4).set_bit 0).clear_bit 0 = BitBoard.mk 4 :=
  ⟨by decide, by decide, by decide,
    C3_set_clear_roundtrip ⟨4⟩ 0 (by decide) (by decide) (by decide)⟩

/-- C4: the sequence produced by `iter` yields exactly the indices for
which `is_set` is true, in strictly ascending order with no repeats; the
iterator works on a private copy of the word (`iter` only reads `b.val`),
so producing or consuming the sequence never mutates the mask and two
calls to `iter` traverse the same sequence. -/
theorem C4_iter_spec (b : BitBoard) (hb : b.val < 2 ^ 64) :
    (∀ i, i ∈ b.iter.toList ↔ b.is_set i = true) ∧
    List.Sorted (fun x y => x < y) b.iter.toList ∧
    b.iter.toList.Nodup ∧
    b.iter.val = b.val := by
  refine ⟨fun i => ?_, sorted_bitList _, (sorted_bitList _).nodup, rfl⟩
  by_cases hi : i < 64
  · rw [is_set_eq_testBit b hi]
    exact mem_bitList b.val i
  · rw [is_set_eq_false_of_ge b (by omega)]
    constructor
    · intro hmem
      exact absurd (bitList_lt_of_mem hb hmem) hi
    · intro hfalse
      exact absurd hfalse (by simp)

theorem C4_witness :
    (BitBoard.mk 5).val < 2 ^ 64 ∧
    ((∀ i, i ∈ (BitBoard.mk 5).iter.toList ↔ (BitBoard.mk 5).is_set i = true) ∧
     List.Sorted (fun x y => x < y) (BitBoard.mk 5).iter.toList ∧
     (BitBoard.mk 5).iter.toList.Nodup ∧
     (BitBoard.mk 5).iter.val = (BitBoard.mk 5).val) :=
  ⟨by decide, C4_iter_spec ⟨5⟩ (by decide)⟩

/-- C5: immediately after `Position.new`, all 12 per-kind masks and both
per-side masks have popcount 0, and the synchronization invariant
`bb_sides[s] = OR of bb_pieces[s][k]` holds trivially. -/
theorem C5_new_empty :
    (∀ s k, (Position.new.bb_pieces s k).popcount = 0) ∧
    (∀ s, (Position.new.bb_sides s).popcount = 0) ∧
    (∀ s, Position.new.bb_sides s = sideUnion Position.new s) := by
  refine ⟨fun s k => countOnes_zero, fun s => countOnes_zero, fun s => ?_⟩
  fin_cases s <;> decide

/-- C6: `update_sides` modifies only the two per-side union masks: every
entry of `bb_pieces` is unchanged by the call, and the operation is a
total function (it never fails). -/
theorem C6_update_sides_frame (p : Position) (s : Fin 2) (k : Fin 6) :
    (p.update_sides).bb_pieces s k = p.bb_pieces s k := by
  rw [update_sides_bb_pieces]

/-- C7: `set_bit` and `clear_bit` are idempotent. -/
theorem C7_idempotent (m : BitBoard) (i : Nat) :
    (m.set_bit i).set_bit i = m.set_bit i ∧
    (m.clear_bit i).clear_bit i = m.clear_bit i := by
  constructor <;> apply BitBoard.eq_of_val
  · show (m.set_bit i).val ||| (1 <<< i) % 2 ^ 64 = m.val ||| (1 <<< i) % 2 ^ 64
    rw [BitBoard.set_bit]
    apply Nat.eq_of_testBit_eq
    intro j
    simp [Nat.testBit_lor, Bool.or_assoc]
  · show (m.clear_bit i).val &&& not64 ((1 <<< i) % 2 ^ 64)
      = m.val &&& not64 ((1 <<< i) % 2 ^ 64)
    rw [BitBoard.clear_bit]
    apply Nat.eq_of_testBit_eq
    intro j
    simp [Nat.testBit_land, Bool.and_assoc]

/-- C8: under the precondition `square ≤ 63` the shift amount in
`from_square`, `set_bit`, `clear_bit` and `is_set` is strictly below the
64-bit word width, so the Rust-checked variants succeed and agree with the
unchecked operations; the code performs no bounds check, so for
`square ≥ 64` the checked shift faults (returns `none`). -/
theorem C8_shift_domain (b : BitBoard) (square : Nat) (h : square ≤ 63) :
    (square < 64 ∧
     BitBoard.from_square? square = some (BitBoard.from_square square) ∧
     b.set_bit? square = some (b.set_bit square) ∧
     b.clear_bit? square = some (b.clear_bit square) ∧
     b.is_set? square = some (b.is_set square)) ∧
    (∀ j, 64 ≤ j →
      BitBoard.from_square? j = none ∧ b.set_bit? j = none ∧
      b.clear_bit? j = none ∧ b.is_set? j = none) := by
  have hlt : square < 64 := by omega
  constructor
  · refine ⟨hlt, ?_, ?_, ?_, ?_⟩ <;>
      simp [BitBoard.from_square?, BitBoard.set_bit?, BitBoard.clear_bit?,
        BitBoard.is_set?, shl64?, hlt, BitBoard.from_square, BitBoard.set_bit,
        BitBoard.clear_bit, BitBoard.is_set]
  · intro j hj
    have hnlt : ¬ j < 64 := by omega
    refine ⟨?_, ?_, ?_, ?_⟩ <;>
      simp [BitBoard.from_square?, BitBoard.set_bit?, BitBoard.clear_bit?,
        BitBoard.is_set?, shl64?, hnlt]

theorem C8_witness :
    63 ≤ 63 ∧
    ((63 < 64 ∧
      BitBoard.from_square? 63 = some (BitBoard.from_square 63) ∧
      (BitBoard.mk 0).set_bit? 63 = some ((BitBoard.mk 0).set_bit 63) ∧
      (BitBoard.mk 0).clear_bit? 63 = some ((BitBoard.mk 0).clear_bit 63) ∧
      (BitBoard.mk 0).is_set? 63 = some ((BitBoard.mk 0).is_set 63)) ∧
     (∀ j, 64 ≤ j →
       BitBoard.from_square? j = none ∧ (BitBoard.mk 0).set_bit? j = none ∧
       (BitBoard.mk 0).clear_bit? j = none ∧ (BitBoard.mk 0).is_set? j = none)) :=
  ⟨by decide, C8_shift_domain ⟨0⟩ 63 (by decide)⟩

/-- C9: iteration always terminates: whenever `next` yields an element the
iterator's working word strictly decreases, and on a 64-bit word the full
stream has at most 64 elements. -/
theorem C9_iter_terminates (b : BitBoard) (hb : b.val < 2 ^ 64) :
    (∀ (it it2 : BitBoardIterator) (i : Nat),
      it.next = some (i, it2) → it2.val < it.val) ∧
    b.iter.toList.length ≤ 64 := by
  constructor
  · intro it it2 i h
    rw [BitBoardIterator.next] at h
    by_cases hz : it.val = 0
    · simp [hz] at h
    · simp only [if_neg hz, Option.some.injEq, Prod.mk.injEq] at h
      obtain ⟨_, h2⟩ := h
      rw [← h2]
      exact and_sub_one_lt hz
  · exact bitList_length_le hb

theorem C9_witness :
    (BitBoard.mk 3).val < 2 ^ 64 ∧
    ((∀ (it it2 : BitBoardIterator) (i : Nat),
       it.next = some (i, it2) → it2.val < it.val) ∧
     (BitBoard.mk 3).iter.toList.length ≤ 64) :=
  ⟨by decide, C9_iter_terminates ⟨3⟩ (by decide)⟩

/-- C10: `update_sides` is idempotent: a second call yields exactly the
same state, and on an already-synchronized position the call leaves the
position unchanged. -/
theorem C10_update_sides_idempotent (p : Position) :
    (p.update_sides).update_sides = p.update_sides ∧
    ((∀ s, p.bb_sides s = sideUnion p s) → p.update_sides = p) := by
  constructor
  · apply Position.ext'
    · rw [update_sides_bb_pieces]
    · funext s
      rw [update_sides_bb_sides, sideUnion_update_sides, update_sides_bb_sides]
  · intro hsync
    apply Position.ext'
    · rw [update_sides_bb_pieces]
    · funext s
      rw [update_sides_bb_sides, ← hsync s]

theorem C10_witness :
    (∀ s, Position.new.bb_sides s = sideUnion Position.new s) ∧
    (Position.new.update_sides.update_sides = Position.new.update_sides ∧
     Position.new.update_sides = Position.new) := by
  have hsync : ∀ s, Position.new.bb_sides s = sideUnion Position.new s := by
    intro s; fin_cases s <;> decide
  exact ⟨hsync, (C10_update_sides_idempotent Position.new).1,
    (C10_update_sides_idempotent Position.new).2 hsync⟩
